import Mathlib

/-! Formal model of the span-config store: an in-memory index mapping an
ordered key space into a partition of disjoint half-open spans, each carrying
a configuration value. The store supports atomic batched updates with
clipping (and a dry-run mode), point and range-overlap queries, and a
split-key computation. Keys and configuration values are modelled as
naturals; the store's interval index is modelled as a list of entries kept
in strictly increasing span order. -/

namespace Spanconfig

/-- Modelled from the spec: a half-open key interval [key, endKey) over an
ordered key space; `key < endKey` is required for validity. -/
structure Span where
  key : Nat
  endKey : Nat
deriving DecidableEq, Repr

/-- Modelled from the spec: a span is valid when its start lies strictly
before its end. -/
def Span.Valid (sp : Span) : Bool := decide (sp.key < sp.endKey)

/-- Modelled from the spec: two half-open spans overlap when each starts
before the other ends. -/
def Span.Overlaps (a b : Span) : Bool :=
  decide (a.key < b.endKey) && decide (b.key < a.endKey)

/-- Modelled from the spec: a span contains a key when the key lies inside
the half-open interval. -/
def Span.ContainsKey (sp : Span) (k : Nat) : Bool :=
  decide (sp.key ≤ k) && decide (k < sp.endKey)

/-- Modelled from the spec: the indexed unit, a span plus a configuration
value. -/
structure Entry where
  span : Span
  config : Nat
deriving DecidableEq, Repr

/-- Modelled from the spec: an update is an addition (span plus config) or a
deletion (span only), discriminated by whether a config is attached. -/
structure Update where
  span : Span
  config : Option Nat
deriving DecidableEq, Repr

/-- Modelled from the spec: the span-config store, constructed with a
fallback config; the interval index is the list of stored entries. -/
structure Store where
  fallback : Nat
  entries : List Entry
deriving DecidableEq, Repr

/-- Modelled from the spec: `New(fallbackConfig)` builds an empty store. -/
def New (fallback : Nat) : Store := ⟨fallback, []⟩

/-- Modelled from the spec: the left remainder of an existing entry clipped
by an update span — the portion of the entry before the update's start,
carrying the entry's original config. -/
def leftRemainder (u : Span) (en : Entry) : List Entry :=
  if en.span.key < u.key then [⟨⟨en.span.key, u.key⟩, en.config⟩] else []

/-- Modelled from the spec: the right remainder of an existing entry clipped
by an update span — the portion of the entry after the update's end,
carrying the entry's original config. -/
def rightRemainder (u : Span) (en : Entry) : List Entry :=
  if u.endKey < en.span.endKey then [⟨⟨u.endKey, en.span.endKey⟩, en.config⟩] else []

/-- Modelled from the spec: clipping one stored entry against an update
span: an overlapping entry is removed and replaced by its remainders; a
non-overlapping entry is kept. -/
def clipEntry (u : Span) (en : Entry) : List Entry :=
  if Span.Overlaps en.span u then leftRemainder u en ++ rightRemainder u en else [en]

/-- Modelled from the spec: clipping every stored entry against an update
span. -/
def clipList (u : Span) : List Entry → List Entry
  | [] => []
  | en :: rest => clipEntry u en ++ clipList u rest

/-- Modelled from the spec: insertion into the ordered interval index,
placing the new entry at its sorted position by span start. -/
def insertEntry (x : Entry) : List Entry → List Entry
  | [] => [x]
  | y :: ys => if x.span.key ≤ y.span.key then x :: y :: ys else y :: insertEntry x ys

/-- Modelled from the spec: the index state after one update — overlapping
entries are clipped away and, for an addition, the new entry is inserted. -/
def applyUpdateState (u : Update) (st : List Entry) : List Entry :=
  match u.config with
  | some c => insertEntry ⟨u.span, c⟩ (clipList u.span st)
  | none => clipList u.span st

/-- Modelled from the spec: the spans reported as deleted by one update —
the spans of the stored entries overlapping the update's span. -/
def applyUpdateDeleted (u : Update) (st : List Entry) : List Span :=
  (st.filter (fun en => Span.Overlaps en.span u.span)).map (fun en => en.span)

/-- Modelled from the spec: the remainders re-inserted by one update, in
index order. -/
def remaindersOf (u : Span) : List Entry → List Entry
  | [] => []
  | en :: rest =>
      (if Span.Overlaps en.span u then leftRemainder u en ++ rightRemainder u en else []) ++
        remaindersOf u rest

/-- Modelled from the spec: the entries reported as added by one update —
each re-inserted remainder, and the added entry itself for an addition. -/
def applyUpdateAdded (u : Update) (st : List Entry) : List Entry :=
  remaindersOf u.span st ++ (match u.config with | some c => [⟨u.span, c⟩] | none => [])

/-- Modelled from the spec: record a span in the batch's deleted list once
per span per batch. -/
def addSpanOnce (d : List Span) (sp : Span) : List Span :=
  if sp ∈ d then d else d ++ [sp]

/-- Modelled from the spec: merge one update's deleted spans into the
batch's accumulated deleted list, deduplicating. -/
def mergeDeleted (d : List Span) : List Span → List Span
  | [] => d
  | sp :: rest => mergeDeleted (addSpanOnce d sp) rest

/-- Modelled from the spec: the aggregate result of a batch — the deleted
spans, the added entries, and the final index state. -/
structure ApplyResult where
  deleted : List Span
  added : List Entry
  state : List Entry
deriving DecidableEq, Repr

/-- Modelled from the spec: process a batch of updates in order,
accumulating the deltas across the whole batch. -/
def applyBatchGo (d : List Span) (a : List Entry) (st : List Entry) :
    List Update → ApplyResult
  | [] => ⟨d, a, st⟩
  | u :: us =>
      applyBatchGo (mergeDeleted d (applyUpdateDeleted u st))
        (a ++ applyUpdateAdded u st) (applyUpdateState u st) us

/-- Modelled from the spec: the index state after a batch of updates. -/
def batchState : List Update → List Entry → List Entry
  | [], st => st
  | u :: us, st => batchState us (applyUpdateState u st)

/-- Modelled from the spec: `Apply(dryrun, updates)` — rejects a batch
containing a malformed span without committing anything; otherwise applies
every update, returning the aggregate deleted spans and added entries, and
(unless dry-run, which rolls the structural mutations back) the mutated
store. -/
def Store.applyInternal (s : Store) (dryrun : Bool) (us : List Update) :
    Except String (List Span × List Entry × Store) :=
  if us.all (fun u => Span.Valid u.span) then
    Except.ok ((applyBatchGo [] [] s.entries us).deleted,
      (applyBatchGo [] [] s.entries us).added,
      if dryrun then s else ⟨s.fallback, (applyBatchGo [] [] s.entries us).state⟩)
  else Except.error ("invalid span")

/-- Modelled from the spec: the store a caller holds after an apply call —
the returned store on success, the unchanged store when the batch was
rejected (a batch lands wholly or not at all). -/
def Store.applyStore (s : Store) (dryrun : Bool) (us : List Update) : Store :=
  match s.applyInternal dryrun us with
  | Except.ok (_, _, s2) => s2
  | Except.error _ => s

/-- Modelled from the spec: a sequence of committed apply calls. -/
def applySeq (batches : List (List Update)) (s : Store) : Store :=
  match batches with
  | [] => s
  | b :: bs => applySeq bs (s.applyStore false b)

/-- Modelled from the spec: `AllOverlapping(span)` returns the stored
entries overlapping the query span, sorted by span start. -/
def Store.GetAllOverlapping (s : Store) (sp : Span) : List Entry :=
  s.entries.filter (fun en => Span.Overlaps en.span sp)

/-- Modelled from the spec: `GetSpanConfigForKey(k)` is equivalent to a
query over `[k, k+1)`; it returns the sole overlapping entry's config or the
fallback and never errors on a well-formed key. -/
def Store.GetSpanConfigForKey (s : Store) (k : Nat) : Except String Nat :=
  Except.ok
    (match s.entries.filter (fun en => Span.Overlaps en.span ⟨k, k + 1⟩) with
    | [] => s.fallback
    | en :: _ => en.config)

/-- Modelled from the spec: `ComputeSplitKey(start, end)` — among the stored
entries overlapping the queried range, sorted by span start, the start key
of the first entry whose span start lies strictly inside the open range. -/
def Store.ComputeSplitKey (s : Store) (a b : Nat) : Option Nat :=
  match (s.entries.filter (fun en => Span.Overlaps en.span ⟨a, b⟩)).find?
      (fun en => decide (a < en.span.key) && decide (en.span.key < b)) with
  | some en => some en.span.key
  | none => none

/-- Modelled from the spec: `NeedsSplit(start, end)` — true iff the stored
entries overlapping the queried range number more than one distinct
element. -/
def Store.NeedsSplit (s : Store) (a b : Nat) : Bool :=
  decide (1 < (s.entries.filter (fun en => Span.Overlaps en.span ⟨a, b⟩)).dedup.length)

/-- Whether `ComputeSplitKey` returned a key lying strictly inside the open
queried range. -/
def splitKeyStrictlyInside (s : Store) (a b : Nat) : Bool :=
  match s.ComputeSplitKey a b with
  | some k => decide (a < k) && decide (k < b)
  | none => false

/-- A batch is pairwise non-overlapping when no two of its updates have
overlapping spans. -/
def pairwiseDisjoint : List Update → Bool
  | [] => true
  | u :: us => us.all (fun v => !(Span.Overlaps u.span v.span)) && pairwiseDisjoint us

/-- The well-formedness invariant of the index, stated with an explicit
lower bound: every entry starts at or after the bound, every span is valid,
and each entry ends at or before the next one starts. -/
def chainedFrom (b : Nat) : List Entry → Bool
  | [] => true
  | en :: rest =>
      decide (b ≤ en.span.key) && decide (en.span.key < en.span.endKey) &&
        chainedFrom en.span.endKey rest

/-- The partition invariant of the stored entries: valid spans, strictly
increasing, non-overlapping. -/
def wellFormed (st : List Entry) : Bool := chainedFrom 0 st

/-- The endpoint keys contributed by the updates of one batch. -/
def updateBoundaries : List Update → List Nat
  | [] => []
  | u :: us => u.span.key :: u.span.endKey :: updateBoundaries us

/-- The endpoint keys contributed by a sequence of batches. -/
def batchBoundaries : List (List Update) → List Nat
  | [] => []
  | b :: bs => updateBoundaries b ++ batchBoundaries bs

theorem chainedFrom_cons {b : Nat} {en : Entry} {l : List Entry} :
    chainedFrom b (en :: l) = true ↔
      b ≤ en.span.key ∧ en.span.key < en.span.endKey ∧ chainedFrom en.span.endKey l = true := by
  simp [chainedFrom, Bool.and_eq_true, decide_eq_true_eq, and_assoc]

theorem chainedFrom_mono {a b : Nat} {l : List Entry} (hab : a ≤ b)
    (h : chainedFrom b l = true) : chainedFrom a l = true := by
  cases l with
  | nil => rfl
  | cons en rest =>
      rcases chainedFrom_cons.mp h with ⟨h1, h2, h3⟩
      exact chainedFrom_cons.mpr ⟨le_trans hab h1, h2, h3⟩

theorem chainedFrom_bound {b : Nat} {l : List Entry} (h : chainedFrom b l = true) :
    ∀ en ∈ l, b ≤ en.span.key ∧ en.span.key < en.span.endKey := by
  induction l generalizing b with
  | nil => intro en hen; cases hen
  | cons x xs ih =>
      rcases chainedFrom_cons.mp h with ⟨h1, h2, h3⟩
      intro en hen
      rcases List.mem_cons.mp hen with rfl | hmem
      · exact ⟨h1, h2⟩
      · rcases ih h3 en hmem with ⟨hb, hv⟩
        exact ⟨le_trans h1 (le_trans (le_of_lt h2) hb), hv⟩

theorem chainedFrom_pairwise_lt {b : Nat} {l : List Entry} (h : chainedFrom b l = true) :
    l.Pairwise (fun x y => x.span.key < y.span.key) := by
  induction l generalizing b with
  | nil => exact List.Pairwise.nil
  | cons x xs ih =>
      rcases chainedFrom_cons.mp h with ⟨_, h2, h3⟩
      refine List.Pairwise.cons ?_ (ih h3)
      intro y hy
      exact lt_of_lt_of_le h2 (chainedFrom_bound h3 y hy).1

theorem chainedFrom_pairwise_noov {b : Nat} {l : List Entry} (h : chainedFrom b l = true) :
    l.Pairwise (fun x y => Span.Overlaps x.span y.span = false) := by
  induction l generalizing b with
  | nil => exact List.Pairwise.nil
  | cons x xs ih =>
      rcases chainedFrom_cons.mp h with ⟨_, _, h3⟩
      refine List.Pairwise.cons ?_ (ih h3)
      intro y hy
      have hb := (chainedFrom_bound h3 y hy).1
      simp only [Span.Overlaps, Bool.and_eq_false_iff, decide_eq_false_iff_not, not_lt]
      exact Or.inr hb

theorem chainedFrom_valid {b : Nat} {l : List Entry} (h : chainedFrom b l = true) :
    ∀ en ∈ l, Span.Valid en.span = true := by
  intro en hen
  have := (chainedFrom_bound h en hen).2
  simp [Span.Valid, this]

theorem chainedFrom_filter {b : Nat} {l : List Entry} (p : Entry → Bool)
    (h : chainedFrom b l = true) : chainedFrom b (l.filter p) = true := by
  induction l generalizing b with
  | nil => rfl
  | cons x xs ih =>
      rcases chainedFrom_cons.mp h with ⟨h1, h2, h3⟩
      by_cases hp : p x = true
      · rw [List.filter_cons_of_pos hp]
        exact chainedFrom_cons.mpr ⟨h1, h2, ih h3⟩
      · rw [List.filter_cons_of_neg (by simpa using hp)]
        exact chainedFrom_mono (le_trans h1 (le_of_lt h2)) (ih h3)

theorem overlaps_iff {a b : Span} :
    Span.Overlaps a b = true ↔ (a.key < b.endKey ∧ b.key < a.endKey) := by
  simp [Span.Overlaps, Bool.and_eq_true, decide_eq_true_eq]

theorem not_overlaps_iff {a b : Span} :
    Span.Overlaps a b = false ↔ (b.endKey ≤ a.key ∨ a.endKey ≤ b.key) := by
  rw [← Bool.not_eq_true, overlaps_iff]
  omega

theorem chainedFrom_clipList {u : Span} (hu : u.key ≤ u.endKey) :
    ∀ {b : Nat} {l : List Entry}, chainedFrom b l = true →
      chainedFrom b (clipList u l) = true := by
  intro b l
  induction l generalizing b with
  | nil => intro _; rfl
  | cons x xs ih =>
      intro h
      rcases chainedFrom_cons.mp h with ⟨h1, h2, h3⟩
      have hrest : chainedFrom x.span.endKey (clipList u xs) = true := ih h3
      have hrest_b : chainedFrom b (clipList u xs) = true :=
        chainedFrom_mono (le_trans h1 (le_of_lt h2)) hrest
      show chainedFrom b (clipEntry u x ++ clipList u xs) = true
      unfold clipEntry
      by_cases hov : Span.Overlaps x.span u = true
      · rw [if_pos hov]
        rcases overlaps_iff.mp hov with ⟨hxlt, hult⟩
        unfold leftRemainder rightRemainder
        by_cases hl : x.span.key < u.key
        · rw [if_pos hl]
          by_cases hr : u.endKey < x.span.endKey
          · rw [if_pos hr]
            refine chainedFrom_cons.mpr ⟨h1, hl, ?_⟩
            exact chainedFrom_cons.mpr ⟨hu, hr, hrest⟩
          · rw [if_neg hr]
            refine chainedFrom_cons.mpr ⟨h1, hl, ?_⟩
            exact chainedFrom_mono (le_of_lt hult) hrest
        · rw [if_neg hl]
          by_cases hr : u.endKey < x.span.endKey
          · rw [if_pos hr]
            exact chainedFrom_cons.mpr ⟨le_trans h1 (le_of_lt hxlt), hr, hrest⟩
          · rw [if_neg hr]
            exact hrest_b
      · rw [if_neg hov]
        exact chainedFrom_cons.mpr ⟨h1, h2, hrest⟩

theorem mem_clipEntry_cases {u : Span} {x en : Entry} (h : en ∈ clipEntry u x) :
    (Span.Overlaps x.span u = false ∧ en = x) ∨
      (Span.Overlaps x.span u = true ∧
        ((x.span.key < u.key ∧ en = ⟨⟨x.span.key, u.key⟩, x.config⟩) ∨
          (u.endKey < x.span.endKey ∧ en = ⟨⟨u.endKey, x.span.endKey⟩, x.config⟩))) := by
  unfold clipEntry at h
  by_cases hov : Span.Overlaps x.span u = true
  · rw [if_pos hov] at h
    unfold leftRemainder rightRemainder at h
    right
    refine ⟨hov, ?_⟩
    by_cases hl : x.span.key < u.key
    · rw [if_pos hl] at h
      by_cases hr : u.endKey < x.span.endKey
      · rw [if_pos hr] at h
        rcases List.mem_cons.mp h with rfl | h2
        · exact Or.inl ⟨hl, rfl⟩
        · rcases List.mem_cons.mp h2 with rfl | h3
          · exact Or.inr ⟨hr, rfl⟩
          · cases h3
      · rw [if_neg hr] at h
        rcases List.mem_cons.mp h with rfl | h2
        · exact Or.inl ⟨hl, rfl⟩
        · cases h2
    · rw [if_neg hl] at h
      by_cases hr : u.endKey < x.span.endKey
      · rw [if_pos hr] at h
        have h2 : en = ⟨⟨u.endKey, x.span.endKey⟩, x.config⟩ := by simpa using h
        exact Or.inr ⟨hr, h2⟩
      · rw [if_neg hr] at h
        simp at h
  · rw [if_neg (by simpa using hov)] at h
    rcases List.mem_cons.mp h with rfl | h2
    · exact Or.inl ⟨by simpa using hov, rfl⟩
    · cases h2

theorem clipList_no_overlap {u : Span} {l : List Entry} :
    ∀ en ∈ clipList u l, Span.Overlaps en.span u = false := by
  induction l with
  | nil => intro en hen; cases hen
  | cons x xs ih =>
      intro en hen
      rcases List.mem_append.mp hen with hl | hr
      · rcases mem_clipEntry_cases hl with ⟨hno, rfl⟩ | ⟨_, hcase⟩
        · exact hno
        · rcases hcase with ⟨_, rfl⟩ | ⟨_, rfl⟩
          · exact not_overlaps_iff.mpr (Or.inr (le_refl _))
          · exact not_overlaps_iff.mpr (Or.inl (le_refl _))
      · exact ih en hr

theorem mem_insertEntry {x en : Entry} {l : List Entry} :
    en ∈ insertEntry x l ↔ (en = x ∨ en ∈ l) := by
  induction l with
  | nil => simp [insertEntry]
  | cons y ys ih =>
      unfold insertEntry
      by_cases hc : x.span.key ≤ y.span.key
      · rw [if_pos hc]
        simp [List.mem_cons]
      · rw [if_neg hc]
        simp only [List.mem_cons, ih]
        tauto

theorem chainedFrom_insertEntry {x : Entry} :
    ∀ {b : Nat} {l : List Entry}, b ≤ x.span.key → x.span.key < x.span.endKey →
      chainedFrom b l = true → (∀ en ∈ l, Span.Overlaps en.span x.span = false) →
      chainedFrom b (insertEntry x l) = true := by
  intro b l
  induction l generalizing b with
  | nil =>
      intro hb hv _ _
      exact chainedFrom_cons.mpr ⟨hb, hv, rfl⟩
  | cons y ys ih =>
      intro hb hv h hno
      rcases chainedFrom_cons.mp h with ⟨h1, h2, h3⟩
      unfold insertEntry
      by_cases hc : x.span.key ≤ y.span.key
      · rw [if_pos hc]
        have hyno := hno y (List.mem_cons_self y ys)
        have hxy : x.span.endKey ≤ y.span.key := by
          rcases not_overlaps_iff.mp hyno with hcase | hcase
          · exact hcase
          · exact absurd (lt_of_le_of_lt (le_trans hcase hc) h2) (lt_irrefl _)
        exact chainedFrom_cons.mpr ⟨hb, hv, chainedFrom_cons.mpr ⟨hxy, h2, h3⟩⟩
      · rw [if_neg hc]
        have hyx : y.span.endKey ≤ x.span.key := by
          rcases not_overlaps_iff.mp (hno y (List.mem_cons_self y ys)) with hcase | hcase
          · exact absurd (lt_trans (lt_of_lt_of_le hv hcase) (lt_of_not_le hc)) (lt_irrefl _)
          · exact hcase
        refine chainedFrom_cons.mpr ⟨h1, h2, ?_⟩
        exact ih hyx hv h3 (fun en hen => hno en (List.mem_cons_of_mem y hen))

theorem valid_iff {sp : Span} : Span.Valid sp = true ↔ sp.key < sp.endKey := by
  simp [Span.Valid, decide_eq_true_eq]

theorem containsKey_iff {sp : Span} {k : Nat} :
    Span.ContainsKey sp k = true ↔ (sp.key ≤ k ∧ k < sp.endKey) := by
  simp [Span.ContainsKey, Bool.and_eq_true, decide_eq_true_eq]

theorem overlaps_point_iff {sp : Span} {k : Nat} :
    Span.Overlaps sp ⟨k, k + 1⟩ = true ↔ Span.ContainsKey sp k = true := by
  simp [Span.Overlaps, Span.ContainsKey, Bool.and_eq_true, decide_eq_true_eq,
    Nat.lt_succ_iff]

theorem wellFormed_applyUpdateState {u : Update} (hu : Span.Valid u.span = true)
    {st : List Entry} (h : wellFormed st = true) :
    wellFormed (applyUpdateState u st) = true := by
  have huv : u.span.key < u.span.endKey := valid_iff.mp hu
  unfold applyUpdateState
  cases u.config with
  | none => exact chainedFrom_clipList (le_of_lt huv) h
  | some c =>
      exact chainedFrom_insertEntry (Nat.zero_le _) huv
        (chainedFrom_clipList (le_of_lt huv) h)
        (fun en hen => clipList_no_overlap en hen)

theorem wellFormed_batchState {us : List Update}
    (hv : ∀ u ∈ us, Span.Valid u.span = true) {st : List Entry}
    (h : wellFormed st = true) : wellFormed (batchState us st) = true := by
  induction us generalizing st with
  | nil => exact h
  | cons u us ih =>
      exact ih (fun v hvmem => hv v (List.mem_cons_of_mem u hvmem))
        (wellFormed_applyUpdateState (hv u (List.mem_cons_self u us)) h)

theorem applyBatchGo_state (us : List Update) :
    ∀ d a st, (applyBatchGo d a st us).state = batchState us st := by
  induction us with
  | nil => intro d a st; rfl
  | cons u us ih => intro d a st; exact ih _ _ _

theorem applyInternal_ok {s : Store} {dr : Bool} {us : List Update}
    (hall : us.all (fun u => Span.Valid u.span) = true) :
    s.applyInternal dr us = Except.ok ((applyBatchGo [] [] s.entries us).deleted,
      (applyBatchGo [] [] s.entries us).added,
      if dr then s else ⟨s.fallback, (applyBatchGo [] [] s.entries us).state⟩) := by
  unfold Store.applyInternal
  rw [if_pos hall]

theorem applyInternal_err {s : Store} {dr : Bool} {us : List Update}
    (hall : ¬us.all (fun u => Span.Valid u.span) = true) :
    s.applyInternal dr us = Except.error ("invalid span") := by
  unfold Store.applyInternal
  rw [if_neg hall]

theorem applyStore_eq (s : Store) (dr : Bool) (us : List Update) :
    s.applyStore dr us =
      if us.all (fun u => Span.Valid u.span) = true ∧ dr = false
      then ⟨s.fallback, batchState us s.entries⟩ else s := by
  by_cases hall : us.all (fun u => Span.Valid u.span) = true
  · cases dr
    · unfold Store.applyStore
      rw [applyInternal_ok hall]
      simp [hall, applyBatchGo_state]
    · unfold Store.applyStore
      rw [applyInternal_ok hall]
      simp
  · unfold Store.applyStore
    rw [applyInternal_err hall]
    simp [hall]

theorem wellFormed_applyStore {s : Store} (h : wellFormed s.entries = true)
    (dr : Bool) (us : List Update) :
    wellFormed (s.applyStore dr us).entries = true := by
  rw [applyStore_eq]
  by_cases hc : us.all (fun u => Span.Valid u.span) = true ∧ dr = false
  · rw [if_pos hc]
    exact wellFormed_batchState
      (fun u hu => List.all_eq_true.mp hc.1 u hu) h
  · rw [if_neg hc]
    exact h

theorem wellFormed_applySeq (batches : List (List Update)) {s : Store}
    (h : wellFormed s.entries = true) :
    wellFormed (applySeq batches s).entries = true := by
  induction batches generalizing s with
  | nil => exact h
  | cons b bs ih => exact ih (wellFormed_applyStore h false b)

theorem mem_addSpanOnce_left {d : List Span} {x sp : Span} (h : sp ∈ d) :
    sp ∈ addSpanOnce d x := by
  by_cases hmem : x ∈ d
  · rw [addSpanOnce, if_pos hmem]
    exact h
  · rw [addSpanOnce, if_neg hmem]
    exact List.mem_append_left _ h

theorem mem_addSpanOnce_self {d : List Span} {sp : Span} : sp ∈ addSpanOnce d sp := by
  by_cases hmem : sp ∈ d
  · rw [addSpanOnce, if_pos hmem]
    exact hmem
  · rw [addSpanOnce, if_neg hmem]
    exact List.mem_append_right _ (List.mem_singleton.mpr rfl)

theorem mem_mergeDeleted {sp : Span} :
    ∀ {l d : List Span}, (sp ∈ d ∨ sp ∈ l) → sp ∈ mergeDeleted d l := by
  intro l
  induction l with
  | nil =>
      intro d h
      rcases h with h | h
      · exact h
      · cases h
  | cons x xs ih =>
      intro d h
      show sp ∈ mergeDeleted (addSpanOnce d x) xs
      rcases h with h | h
      · exact ih (Or.inl (mem_addSpanOnce_left h))
      · rcases List.mem_cons.mp h with rfl | h2
        · exact ih (Or.inl mem_addSpanOnce_self)
        · exact ih (Or.inr h2)

theorem nodup_addSpanOnce {d : List Span} (h : d.Nodup) (sp : Span) :
    (addSpanOnce d sp).Nodup := by
  by_cases hmem : sp ∈ d
  · rw [addSpanOnce, if_pos hmem]
    exact h
  · rw [addSpanOnce, if_neg hmem]
    refine List.Nodup.append h (List.nodup_singleton sp) ?_
    intro a ha hb
    rw [List.mem_singleton] at hb
    subst hb
    exact hmem ha

theorem nodup_mergeDeleted :
    ∀ {l d : List Span}, d.Nodup → (mergeDeleted d l).Nodup := by
  intro l
  induction l with
  | nil => intro d h; exact h
  | cons x xs ih =>
      intro d h
      exact ih (nodup_addSpanOnce h x)

theorem mem_remaindersOf {u : Span} {E : Entry} :
    ∀ {st : List Entry}, E ∈ st → Span.Overlaps E.span u = true →
      ∀ {x : Entry}, x ∈ leftRemainder u E ++ rightRemainder u E →
        x ∈ remaindersOf u st := by
  intro st
  induction st with
  | nil => intro hE; cases hE
  | cons y ys ih =>
      intro hE hov x hx
      show x ∈ (if Span.Overlaps y.span u then leftRemainder u y ++ rightRemainder u y
        else []) ++ remaindersOf u ys
      rcases List.mem_cons.mp hE with rfl | h2
      · rw [if_pos hov]
        exact List.mem_append_left _ hx
      · exact List.mem_append_right _ (ih h2 hov hx)

theorem mem_clipList_of {u : Span} {E x : Entry} :
    ∀ {st : List Entry}, E ∈ st → x ∈ clipEntry u E → x ∈ clipList u st := by
  intro st
  induction st with
  | nil => intro hE; cases hE
  | cons y ys ih =>
      intro hE hx
      show x ∈ clipEntry u y ++ clipList u ys
      rcases List.mem_cons.mp hE with rfl | h2
      · exact List.mem_append_left _ hx
      · exact List.mem_append_right _ (ih h2 hx)

theorem mem_clipList_cases {u : Span} {en : Entry} :
    ∀ {l : List Entry}, en ∈ clipList u l → ∃ E, E ∈ l ∧ en ∈ clipEntry u E := by
  intro l
  induction l with
  | nil => intro h; cases h
  | cons x xs ih =>
      intro h
      rcases List.mem_append.mp h with h1 | h2
      · exact ⟨x, List.mem_cons_self x xs, h1⟩
      · rcases ih h2 with ⟨E, hE, hcE⟩
        exact ⟨E, List.mem_cons_of_mem x hE, hcE⟩

theorem applyUpdateState_overlap {u : Update} {st : List Entry} {en : Entry}
    (hen : en ∈ applyUpdateState u st)
    (hov : Span.Overlaps en.span u.span = true) :
    en.span = u.span ∧ u.config = some en.config := by
  unfold applyUpdateState at hen
  cases hc : u.config with
  | none =>
      rw [hc] at hen
      have hfalse := clipList_no_overlap en hen
      simp [hfalse] at hov
  | some c =>
      rw [hc] at hen
      rcases mem_insertEntry.mp hen with rfl | h2
      · exact ⟨rfl, rfl⟩
      · have hfalse := clipList_no_overlap en h2
        simp [hfalse] at hov

theorem filter_none {α : Type} {p : α → Bool} {l : List α}
    (h : ∀ a ∈ l, p a = false) : l.filter p = [] := by
  induction l with
  | nil => rfl
  | cons x xs ih =>
      rw [List.filter_cons_of_neg (by simp [h x (List.mem_cons_self x xs)])]
      exact ih (fun a ha => h a (List.mem_cons_of_mem x ha))

theorem find?_min_key {p : Entry → Bool} :
    ∀ {l : List Entry} {c : Nat}, chainedFrom c l = true → ∀ {x : Entry},
      l.find? p = some x → ∀ y ∈ l, p y = true → x.span.key ≤ y.span.key := by
  intro l
  induction l with
  | nil => intro c _ x hx; cases hx
  | cons z zs ih =>
      intro c h x hx y hy hpy
      rcases chainedFrom_cons.mp h with ⟨h1, h2, h3⟩
      by_cases hz : p z = true
      · rw [List.find?_cons_of_pos _ hz] at hx
        injection hx with hx
        subst hx
        rcases List.mem_cons.mp hy with rfl | hmem
        · exact le_refl _
        · exact le_trans (le_of_lt h2) (chainedFrom_bound h3 y hmem).1
      · rw [List.find?_cons_of_neg _ (by simpa using hz)] at hx
        rcases List.mem_cons.mp hy with rfl | hmem
        · exact absurd hpy hz
        · exact ih h3 hx y hmem hpy

theorem second_overlap_strict {sp : Span} :
    ∀ {l : List Entry} {c : Nat}, chainedFrom c l = true →
      ∀ {e1 e2 : Entry}, e1 ∈ l → e2 ∈ l → e1 ≠ e2 →
        Span.Overlaps e1.span sp = true → Span.Overlaps e2.span sp = true →
        ∃ en, en ∈ l ∧ Span.Overlaps en.span sp = true ∧ sp.key < en.span.key := by
  intro l
  induction l with
  | nil => intro c _ e1 e2 h1; cases h1
  | cons z zs ih =>
      intro c h e1 e2 h1 h2 hne hov1 hov2
      rcases chainedFrom_cons.mp h with ⟨hb, hv, h3⟩
      rcases List.mem_cons.mp h1 with rfl | h1m
      · rcases List.mem_cons.mp h2 with rfl | h2m
        · exact absurd rfl hne
        · refine ⟨e2, List.mem_cons_of_mem e1 h2m, hov2, ?_⟩
          have hzend : sp.key < e1.span.endKey := (overlaps_iff.mp hov1).2
          exact lt_of_lt_of_le hzend (chainedFrom_bound h3 e2 h2m).1
      · rcases List.mem_cons.mp h2 with rfl | h2m
        · refine ⟨e1, List.mem_cons_of_mem e2 h1m, hov1, ?_⟩
          have hzend : sp.key < e2.span.endKey := (overlaps_iff.mp hov2).2
          exact lt_of_lt_of_le hzend (chainedFrom_bound h3 e1 h1m).1
        · rcases ih h3 h1m h2m hne hov1 hov2 with ⟨en, hmem, ho, hk⟩
          exact ⟨en, List.mem_cons_of_mem z hmem, ho, hk⟩

theorem contained_unique {p q : Nat} (hpq : p < q) :
    ∀ {l : List Entry} {c : Nat}, chainedFrom c l = true →
      ∀ {e1 e2 : Entry}, e1 ∈ l → e2 ∈ l →
        e1.span.key ≤ p → q ≤ e1.span.endKey → e2.span.key ≤ p → q ≤ e2.span.endKey →
        e1 = e2 := by
  intro l
  induction l with
  | nil => intro c _ e1 e2 h1; cases h1
  | cons z zs ih =>
      intro c h e1 e2 h1 h2 ha1 hb1 ha2 hb2
      rcases chainedFrom_cons.mp h with ⟨_, _, h3⟩
      rcases List.mem_cons.mp h1 with rfl | h1m
      · rcases List.mem_cons.mp h2 with rfl | h2m
        · rfl
        · have hkey : e1.span.endKey ≤ e2.span.key := (chainedFrom_bound h3 e2 h2m).1
          exact absurd (lt_of_lt_of_le hpq (le_trans hb1 (le_trans hkey ha2))) (lt_irrefl _)
      · rcases List.mem_cons.mp h2 with rfl | h2m
        · have hkey : e2.span.endKey ≤ e1.span.key := (chainedFrom_bound h3 e1 h1m).1
          exact absurd (lt_of_lt_of_le hpq (le_trans hb2 (le_trans hkey ha1))) (lt_irrefl _)
        · exact ih h3 h1m h2m ha1 hb1 ha2 hb2

theorem filter_point {k : Nat} :
    ∀ {l : List Entry} {c : Nat}, chainedFrom c l = true →
      ∀ {E : Entry}, E ∈ l → Span.ContainsKey E.span k = true →
        l.filter (fun en => Span.Overlaps en.span ⟨k, k + 1⟩) = [E] := by
  intro l
  induction l with
  | nil => intro c _ E hE; cases hE
  | cons x xs ih =>
      intro c h E hE hck
      rcases chainedFrom_cons.mp h with ⟨h1, h2, h3⟩
      rcases List.mem_cons.mp hE with rfl | hmem
      · have hkE : k < E.span.endKey := (containsKey_iff.mp hck).2
        have hrest : xs.filter (fun en => Span.Overlaps en.span ⟨k, k + 1⟩) = [] := by
          refine filter_none ?_
          intro y hy
          have hyk : E.span.endKey ≤ y.span.key := (chainedFrom_bound h3 y hy).1
          exact not_overlaps_iff.mpr (Or.inl (le_trans (Nat.succ_le_of_lt hkE) hyk))
        have hpE : Span.Overlaps E.span ⟨k, k + 1⟩ = true := overlaps_point_iff.mpr hck
        simp [List.filter_cons, hpE, hrest]
      · have hxk : x.span.endKey ≤ k := by
          have hEk : E.span.key ≤ k := (containsKey_iff.mp hck).1
          exact le_trans (chainedFrom_bound h3 E hmem).1 hEk
        have hpx : Span.Overlaps x.span ⟨k, k + 1⟩ = false :=
          not_overlaps_iff.mpr (Or.inr hxk)
        rw [List.filter_cons]
        simp only [hpx]
        rw [if_neg (by simp)]
        exact ih h3 hmem hck

theorem chainedFrom_nodup {c : Nat} {l : List Entry} (h : chainedFrom c l = true) :
    l.Nodup := by
  refine (chainedFrom_pairwise_lt h).imp ?_
  intro a b hab
  intro heq
  rw [heq] at hab
  exact lt_irrefl _ hab

theorem keysIn_applyUpdateState {K : List Nat} {u : Update} {st : List Entry}
    (hst : ∀ en ∈ st, en.span.key ∈ K ∧ en.span.endKey ∈ K)
    (hu1 : u.span.key ∈ K) (hu2 : u.span.endKey ∈ K) :
    ∀ en ∈ applyUpdateState u st, en.span.key ∈ K ∧ en.span.endKey ∈ K := by
  have hclip : ∀ en ∈ clipList u.span st, en.span.key ∈ K ∧ en.span.endKey ∈ K := by
    intro en hen
    rcases mem_clipList_cases hen with ⟨E, hE, hcE⟩
    rcases mem_clipEntry_cases hcE with ⟨_, rfl⟩ | ⟨_, hcase⟩
    · exact hst en hE
    · rcases hcase with ⟨_, rfl⟩ | ⟨_, rfl⟩
      · exact ⟨(hst E hE).1, hu1⟩
      · exact ⟨hu2, (hst E hE).2⟩
  intro en hen
  unfold applyUpdateState at hen
  cases hc : u.config with
  | none =>
      rw [hc] at hen
      exact hclip en hen
  | some c =>
      rw [hc] at hen
      rcases mem_insertEntry.mp hen with rfl | h2
      · exact ⟨hu1, hu2⟩
      · exact hclip en h2

theorem keysIn_batchState {K : List Nat} :
    ∀ {us : List Update} {st : List Entry},
      (∀ u ∈ us, u.span.key ∈ K ∧ u.span.endKey ∈ K) →
      (∀ en ∈ st, en.span.key ∈ K ∧ en.span.endKey ∈ K) →
      ∀ en ∈ batchState us st, en.span.key ∈ K ∧ en.span.endKey ∈ K := by
  intro us
  induction us with
  | nil => intro st _ hst en hen; exact hst en hen
  | cons u us ih =>
      intro st hus hst en hen
      have hu := hus u (List.mem_cons_self u us)
      exact ih (fun v hv => hus v (List.mem_cons_of_mem u hv))
        (keysIn_applyUpdateState hst hu.1 hu.2) en hen

theorem keysIn_applyStore {K : List Nat} {s : Store} {us : List Update}
    (hus : ∀ u ∈ us, u.span.key ∈ K ∧ u.span.endKey ∈ K)
    (hst : ∀ en ∈ s.entries, en.span.key ∈ K ∧ en.span.endKey ∈ K) (dr : Bool) :
    ∀ en ∈ (s.applyStore dr us).entries, en.span.key ∈ K ∧ en.span.endKey ∈ K := by
  rw [applyStore_eq]
  by_cases hc : us.all (fun u => Span.Valid u.span) = true ∧ dr = false
  · rw [if_pos hc]
    exact keysIn_batchState hus hst
  · rw [if_neg hc]
    exact hst

theorem keysIn_applySeq {K : List Nat} :
    ∀ {batches : List (List Update)} {s : Store},
      (∀ b ∈ batches, ∀ u ∈ b, u.span.key ∈ K ∧ u.span.endKey ∈ K) →
      (∀ en ∈ s.entries, en.span.key ∈ K ∧ en.span.endKey ∈ K) →
      ∀ en ∈ (applySeq batches s).entries, en.span.key ∈ K ∧ en.span.endKey ∈ K := by
  intro batches
  induction batches with
  | nil => intro s _ hst en hen; exact hst en hen
  | cons b bs ih =>
      intro s hb hst en hen
      exact ih (fun b2 hb2 => hb b2 (List.mem_cons_of_mem b hb2))
        (keysIn_applyStore (hb b (List.mem_cons_self b bs)) hst false) en hen

theorem mem_updateBoundaries {u : Update} :
    ∀ {b : List Update}, u ∈ b →
      u.span.key ∈ updateBoundaries b ∧ u.span.endKey ∈ updateBoundaries b := by
  intro b
  induction b with
  | nil => intro h; cases h
  | cons v vs ih =>
      intro h
      rcases List.mem_cons.mp h with rfl | h2
      · exact ⟨List.mem_cons_self _ _,
          List.mem_cons_of_mem _ (List.mem_cons_self _ _)⟩
      · rcases ih h2 with ⟨ha, hb2⟩
        exact ⟨List.mem_cons_of_mem _ (List.mem_cons_of_mem _ ha),
          List.mem_cons_of_mem _ (List.mem_cons_of_mem _ hb2)⟩

theorem mem_batchBoundaries {b : List Update} :
    ∀ {batches : List (List Update)}, b ∈ batches → ∀ {u : Update}, u ∈ b →
      u.span.key ∈ batchBoundaries batches ∧
        u.span.endKey ∈ batchBoundaries batches := by
  intro batches
  induction batches with
  | nil => intro h; cases h
  | cons c cs ih =>
      intro h u hu
      show u.span.key ∈ updateBoundaries c ++ batchBoundaries cs ∧
        u.span.endKey ∈ updateBoundaries c ++ batchBoundaries cs
      rcases List.mem_cons.mp h with rfl | h2
      · rcases mem_updateBoundaries hu with ⟨ha, hb2⟩
        exact ⟨List.mem_append_left _ ha, List.mem_append_left _ hb2⟩
      · rcases ih h2 hu with ⟨ha, hb2⟩
        exact ⟨List.mem_append_right _ ha, List.mem_append_right _ hb2⟩

theorem one_lt_length_of_pair {l : List Entry} {x y : Entry}
    (hx : x ∈ l) (hy : y ∈ l) (hne : x ≠ y) : 1 < l.length := by
  cases l with
  | nil => cases hx
  | cons a t =>
      cases t with
      | nil =>
          rw [List.mem_singleton] at hx hy
          exact absurd (hx.trans hy.symm) hne
      | cons b r => simp [List.length_cons]

theorem pair_of_one_lt_length {l : List Entry} (h : l.Nodup) (hlen : 1 < l.length) :
    ∃ x, x ∈ l ∧ ∃ y, y ∈ l ∧ x ≠ y := by
  cases l with
  | nil => simp at hlen
  | cons a t =>
      cases t with
      | nil => simp at hlen
      | cons b r =>
          have hab : a ≠ b := by
            intro heq
            have := (List.nodup_cons.mp h).1
            exact this (heq ▸ List.mem_cons_self b r)
          exact ⟨a, List.mem_cons_self _ _, b,
            List.mem_cons_of_mem _ (List.mem_cons_self _ _), hab⟩

theorem mem_applyUpdateState_of_not_overlap {u : Update} {st : List Entry}
    {E : Entry} (hno : Span.Overlaps E.span u.span = false) (hE : E ∈ st) :
    E ∈ applyUpdateState u st := by
  have hcl : E ∈ clipEntry u.span E := by
    rw [clipEntry, if_neg (by simp [hno])]
    exact List.mem_cons_self _ _
  unfold applyUpdateState
  cases u.config with
  | some c => exact mem_insertEntry.mpr (Or.inr (mem_clipList_of hE hcl))
  | none => exact mem_clipList_of hE hcl

theorem mem_applyUpdateAdded_of_remainder {u : Update} {st : List Entry}
    {x : Entry} (h : x ∈ remaindersOf u.span st) : x ∈ applyUpdateAdded u st :=
  List.mem_append_left _ h

theorem applyBatchGo_deleted_mono {sp : Span} :
    ∀ {us : List Update} {d : List Span} {a st : List Entry},
      sp ∈ d → sp ∈ (applyBatchGo d a st us).deleted := by
  intro us
  induction us with
  | nil => intro d a st h; exact h
  | cons u us ih =>
      intro d a st h
      exact ih (mem_mergeDeleted (Or.inl h))

theorem applyBatchGo_added_mono {x : Entry} :
    ∀ {us : List Update} {d : List Span} {a st : List Entry},
      x ∈ a → x ∈ (applyBatchGo d a st us).added := by
  intro us
  induction us with
  | nil => intro d a st h; exact h
  | cons u us ih =>
      intro d a st h
      exact ih (List.mem_append_left _ h)

theorem applyBatchGo_deleted_nodup :
    ∀ {us : List Update} {d : List Span} {a st : List Entry},
      d.Nodup → (applyBatchGo d a st us).deleted.Nodup := by
  intro us
  induction us with
  | nil => intro d a st h; exact h
  | cons u us ih =>
      intro d a st h
      exact ih (nodup_mergeDeleted h)

theorem batch_deleted_of_overlap {E : Entry} :
    ∀ {us : List Update} {d : List Span} {a st : List Entry},
      E ∈ st → (∃ u ∈ us, Span.Overlaps E.span u.span = true) →
      E.span ∈ (applyBatchGo d a st us).deleted := by
  intro us
  induction us with
  | nil =>
      rintro d a st hE ⟨u, hu, _⟩
      cases hu
  | cons u us ih =>
      rintro d a st hE ⟨v, hv, hov⟩
      show E.span ∈ (applyBatchGo (mergeDeleted d (applyUpdateDeleted u st))
        (a ++ applyUpdateAdded u st) (applyUpdateState u st) us).deleted
      by_cases hou : Span.Overlaps E.span u.span = true
      · refine applyBatchGo_deleted_mono (mem_mergeDeleted (Or.inr ?_))
        exact List.mem_map.mpr ⟨E, List.mem_filter.mpr ⟨hE, hou⟩, rfl⟩
      · have hvus : v ∈ us := by
          rcases List.mem_cons.mp hv with rfl | h2
          · exact absurd hov hou
          · exact h2
        exact ih (mem_applyUpdateState_of_not_overlap (Bool.eq_false_iff.mpr hou) hE)
          ⟨v, hvus, hov⟩

theorem applyBatchGo_append (pre : List Update) :
    ∀ (rest : List Update) (d : List Span) (a st : List Entry),
      applyBatchGo d a st (pre ++ rest) =
        applyBatchGo (applyBatchGo d a st pre).deleted
          (applyBatchGo d a st pre).added (applyBatchGo d a st pre).state rest := by
  induction pre with
  | nil => intro rest d a st; rfl
  | cons u pre ih =>
      intro rest d a st
      exact ih rest (mergeDeleted d (applyUpdateDeleted u st))
        (a ++ applyUpdateAdded u st) (applyUpdateState u st)

theorem batchState_append (pre : List Update) :
    ∀ (rest : List Update) (st : List Entry),
      batchState (pre ++ rest) st = batchState rest (batchState pre st) := by
  induction pre with
  | nil => intro rest st; rfl
  | cons u pre ih => intro rest st; exact ih rest (applyUpdateState u st)

theorem batch_step {s : Store} {pre post : List Update} {u : Update} {E : Entry}
    (hE : E ∈ batchState pre s.entries)
    (hov : Span.Overlaps E.span u.span = true) :
    E.span ∈ (applyBatchGo [] [] s.entries (pre ++ u :: post)).deleted ∧
      (E.span.key < u.span.key →
        ((⟨⟨E.span.key, u.span.key⟩, E.config⟩ : Entry) ∈
            (applyBatchGo [] [] s.entries (pre ++ u :: post)).added ∧
          (⟨⟨E.span.key, u.span.key⟩, E.config⟩ : Entry) ∈
            batchState (pre ++ [u]) s.entries)) ∧
      (u.span.endKey < E.span.endKey →
        ((⟨⟨u.span.endKey, E.span.endKey⟩, E.config⟩ : Entry) ∈
            (applyBatchGo [] [] s.entries (pre ++ u :: post)).added ∧
          (⟨⟨u.span.endKey, E.span.endKey⟩, E.config⟩ : Entry) ∈
            batchState (pre ++ [u]) s.entries)) ∧
      (∀ en ∈ batchState (pre ++ [u]) s.entries,
        Span.Overlaps en.span u.span = true →
          en.span = u.span ∧ u.config = some en.config) := by
  have hbs : batchState (pre ++ [u]) s.entries =
      applyUpdateState u (batchState pre s.entries) := by
    rw [batchState_append]
    rfl
  rw [applyBatchGo_append pre (u :: post) [] [] s.entries,
    applyBatchGo_state pre [] [] s.entries, hbs]
  simp only [applyBatchGo]
  refine ⟨?_, ?_, ?_, ?_⟩
  · refine applyBatchGo_deleted_mono (mem_mergeDeleted (Or.inr ?_))
    exact List.mem_map.mpr ⟨E, List.mem_filter.mpr ⟨hE, hov⟩, rfl⟩
  · intro hlt
    have hxl : (⟨⟨E.span.key, u.span.key⟩, E.config⟩ : Entry) ∈
        leftRemainder u.span E ++ rightRemainder u.span E := by
      rw [leftRemainder, if_pos hlt]
      exact List.mem_append_left _ (List.mem_cons_self _ _)
    have hcl : (⟨⟨E.span.key, u.span.key⟩, E.config⟩ : Entry) ∈
        clipEntry u.span E := by
      rw [clipEntry, if_pos hov]
      exact hxl
    constructor
    · refine applyBatchGo_added_mono (List.mem_append_right _ ?_)
      exact mem_applyUpdateAdded_of_remainder (mem_remaindersOf hE hov hxl)
    · unfold applyUpdateState
      cases u.config with
      | some c => exact mem_insertEntry.mpr (Or.inr (mem_clipList_of hE hcl))
      | none => exact mem_clipList_of hE hcl
  · intro hlt
    have hxr : (⟨⟨u.span.endKey, E.span.endKey⟩, E.config⟩ : Entry) ∈
        leftRemainder u.span E ++ rightRemainder u.span E := by
      rw [rightRemainder, if_pos hlt]
      exact List.mem_append_right _ (List.mem_cons_self _ _)
    have hcr : (⟨⟨u.span.endKey, E.span.endKey⟩, E.config⟩ : Entry) ∈
        clipEntry u.span E := by
      rw [clipEntry, if_pos hov]
      exact hxr
    constructor
    · refine applyBatchGo_added_mono (List.mem_append_right _ ?_)
      exact mem_applyUpdateAdded_of_remainder (mem_remaindersOf hE hov hxr)
    · unfold applyUpdateState
      cases u.config with
      | some c => exact mem_insertEntry.mpr (Or.inr (mem_clipList_of hE hcr))
      | none => exact mem_clipList_of hE hcr
  · intro en hen hoven
    exact applyUpdateState_overlap hen hoven

/-- C1: Partition invariant — after every completed apply call, for any
sequence of applies of batches of pairwise non-overlapping, valid updates
starting from a freshly constructed store, enumerating all stored entries
over the whole key space yields spans that are individually valid, in
strictly increasing order of start key, and pairwise non-overlapping. -/
theorem partition_invariant (f : Nat) (batches : List (List Update))
    (hv : ∀ b ∈ batches, ∀ u ∈ b, Span.Valid u.span = true)
    (hp : ∀ b ∈ batches, pairwiseDisjoint b = true) :
    (∀ en ∈ (applySeq batches (New f)).entries, Span.Valid en.span = true) ∧
      (applySeq batches (New f)).entries.Pairwise
        (fun x y => x.span.key < y.span.key) ∧
      (applySeq batches (New f)).entries.Pairwise
        (fun x y => Span.Overlaps x.span y.span = false) := by
  have hwf : wellFormed (applySeq batches (New f)).entries = true :=
    wellFormed_applySeq batches rfl
  exact ⟨chainedFrom_valid hwf, chainedFrom_pairwise_lt hwf,
    chainedFrom_pairwise_noov hwf⟩

/-- Witness for the partition invariant at a concrete two-batch input. -/
theorem partition_invariant_witness :
    (∀ b ∈ [[(⟨⟨1, 3⟩, some 5⟩ : Update)], [⟨⟨2, 4⟩, none⟩]],
      ∀ u ∈ b, Span.Valid u.span = true) ∧
      (∀ b ∈ [[(⟨⟨1, 3⟩, some 5⟩ : Update)], [⟨⟨2, 4⟩, none⟩]],
        pairwiseDisjoint b = true) ∧
      ((∀ en ∈ (applySeq [[(⟨⟨1, 3⟩, some 5⟩ : Update)], [⟨⟨2, 4⟩, none⟩]]
          (New 0)).entries, Span.Valid en.span = true) ∧
        (applySeq [[(⟨⟨1, 3⟩, some 5⟩ : Update)], [⟨⟨2, 4⟩, none⟩]]
          (New 0)).entries.Pairwise (fun x y => x.span.key < y.span.key) ∧
        (applySeq [[(⟨⟨1, 3⟩, some 5⟩ : Update)], [⟨⟨2, 4⟩, none⟩]]
          (New 0)).entries.Pairwise
            (fun x y => Span.Overlaps x.span y.span = false)) :=
  ⟨by decide, by decide,
    partition_invariant 0 [[(⟨⟨1, 3⟩, some 5⟩ : Update)], [⟨⟨2, 4⟩, none⟩]]
      (by decide) (by decide)⟩

/-- C2: Clipping postcondition of Apply — for every apply (dry-run or
committed) of a batch of pairwise non-overlapping valid updates against a
well-formed store: the returned deleted list holds each span at most once
per batch; every initially stored entry overlapping any update of the batch
has its span reported in the deleted list; and at every position of the
batch, each entry stored at that point overlapping the update's span is
removed (only the update's own addition overlaps its span afterwards), has
its span reported in the deleted list, and has its left and/or right
remainder outside the update's span re-inserted carrying its original
config and reported in the added list; concretely, with an existing entry
[2,7):10, applying delete [4,6) returns deleted = [[2,7)] and
added = [[2,4):10, [6,7):10] and leaves exactly those two entries
stored. -/
theorem apply_clipping :
    (∀ (s : Store) (dryrun : Bool) (us : List Update),
      wellFormed s.entries = true →
      (∀ u ∈ us, Span.Valid u.span = true) →
      pairwiseDisjoint us = true →
      ∃ dl ad s2, s.applyInternal dryrun us = Except.ok (dl, ad, s2) ∧
        s2 = (if dryrun = true then s
          else ⟨s.fallback, batchState us s.entries⟩) ∧
        List.Nodup dl ∧
        (∀ E ∈ s.entries, (∃ u ∈ us, Span.Overlaps E.span u.span = true) →
          E.span ∈ dl) ∧
        (∀ pre u post, us = pre ++ u :: post →
          ∀ E ∈ batchState pre s.entries,
            Span.Overlaps E.span u.span = true →
            E.span ∈ dl ∧
              (E.span.key < u.span.key →
                ((⟨⟨E.span.key, u.span.key⟩, E.config⟩ : Entry) ∈ ad ∧
                  (⟨⟨E.span.key, u.span.key⟩, E.config⟩ : Entry) ∈
                    batchState (pre ++ [u]) s.entries)) ∧
              (u.span.endKey < E.span.endKey →
                ((⟨⟨u.span.endKey, E.span.endKey⟩, E.config⟩ : Entry) ∈ ad ∧
                  (⟨⟨u.span.endKey, E.span.endKey⟩, E.config⟩ : Entry) ∈
                    batchState (pre ++ [u]) s.entries)) ∧
              (∀ en ∈ batchState (pre ++ [u]) s.entries,
                Span.Overlaps en.span u.span = true →
                  en.span = u.span ∧ u.config = some en.config))) ∧
      Store.applyInternal ⟨99, [⟨⟨2, 7⟩, 10⟩]⟩ false [⟨⟨4, 6⟩, none⟩] =
        Except.ok ([⟨2, 7⟩], [⟨⟨2, 4⟩, 10⟩, ⟨⟨6, 7⟩, 10⟩],
          ⟨99, [⟨⟨2, 4⟩, 10⟩, ⟨⟨6, 7⟩, 10⟩]⟩) := by
  constructor
  · intro s dryrun us hwf hv hp
    have hall : us.all (fun u => Span.Valid u.span) = true := List.all_eq_true.mpr hv
    refine ⟨(applyBatchGo [] [] s.entries us).deleted,
      (applyBatchGo [] [] s.entries us).added,
      if dryrun then s else ⟨s.fallback, (applyBatchGo [] [] s.entries us).state⟩,
      applyInternal_ok hall, ?_, ?_, ?_, ?_⟩
    · cases dryrun
      · simp [applyBatchGo_state]
      · simp
    · exact applyBatchGo_deleted_nodup List.nodup_nil
    · intro E hE hex
      exact batch_deleted_of_overlap hE hex
    · intro pre u post hus E hE hov
      subst hus
      exact batch_step hE hov
  · rfl

/-- Witness for the clipping postcondition at a concrete two-update batch:
the wide entry [0,10):10 is clipped by delete [2,3), and its re-inserted
remainder [3,10):10 is clipped again by delete [5,6), both spans landing in
the deduplicated deleted list. -/
theorem apply_clipping_witness :
    wellFormed (⟨7, [⟨⟨0, 10⟩, 10⟩]⟩ : Store).entries = true ∧
      (∀ u ∈ [(⟨⟨2, 3⟩, none⟩ : Update), ⟨⟨5, 6⟩, none⟩],
        Span.Valid u.span = true) ∧
      pairwiseDisjoint [(⟨⟨2, 3⟩, none⟩ : Update), ⟨⟨5, 6⟩, none⟩] = true ∧
      (∃ dl ad s2, Store.applyInternal ⟨7, [⟨⟨0, 10⟩, 10⟩]⟩ false
          [(⟨⟨2, 3⟩, none⟩ : Update), ⟨⟨5, 6⟩, none⟩] = Except.ok (dl, ad, s2) ∧
        List.Nodup dl ∧ (⟨0, 10⟩ : Span) ∈ dl ∧ (⟨3, 10⟩ : Span) ∈ dl) := by
  refine ⟨by decide, by decide, by decide, ?_⟩
  rcases apply_clipping.1 ⟨7, [⟨⟨0, 10⟩, 10⟩]⟩ false
      [(⟨⟨2, 3⟩, none⟩ : Update), ⟨⟨5, 6⟩, none⟩] (by decide) (by decide)
      (by decide) with ⟨dl, ad, s2, hok, _, hnd, hdel, hstep⟩
  refine ⟨dl, ad, s2, hok, hnd, ?_, ?_⟩
  · exact hdel ⟨⟨0, 10⟩, 10⟩ (by decide) ⟨⟨⟨2, 3⟩, none⟩, by decide, by decide⟩
  · exact (hstep [⟨⟨2, 3⟩, none⟩] ⟨⟨5, 6⟩, none⟩ [] rfl ⟨⟨3, 10⟩, 10⟩
      (by decide) (by decide)).1

/-- C3: Point lookup correctness and totality — for every key,
`GetSpanConfigForKey` never errors; it returns the config of the unique
stored entry whose span contains the key when such an entry exists, and
otherwise the fallback config fixed at construction. -/
theorem point_lookup (s : Store) (k : Nat) (hwf : wellFormed s.entries = true) :
    (∃ c, s.GetSpanConfigForKey k = Except.ok c) ∧
      (∀ E ∈ s.entries, Span.ContainsKey E.span k = true →
        s.GetSpanConfigForKey k = Except.ok E.config) ∧
      ((∀ E ∈ s.entries, Span.ContainsKey E.span k = false) →
        s.GetSpanConfigForKey k = Except.ok s.fallback) := by
  refine ⟨⟨_, rfl⟩, ?_, ?_⟩
  · intro E hE hck
    have hfe := filter_point hwf hE hck
    unfold Store.GetSpanConfigForKey
    rw [hfe]
  · intro hnone
    have hfe : s.entries.filter (fun en => Span.Overlaps en.span ⟨k, k + 1⟩) = [] := by
      refine filter_none ?_
      intro en hen
      cases hb : Span.Overlaps en.span ⟨k, k + 1⟩
      · rfl
      · have hck := overlaps_point_iff.mp hb
        rw [hnone en hen] at hck
        simp at hck
    unfold Store.GetSpanConfigForKey
    rw [hfe]

/-- Witness for point lookup at a concrete store and key. -/
theorem point_lookup_witness :
    wellFormed (⟨42, [⟨⟨1, 3⟩, 7⟩]⟩ : Store).entries = true ∧
      (⟨⟨1, 3⟩, 7⟩ : Entry) ∈ (⟨42, [⟨⟨1, 3⟩, 7⟩]⟩ : Store).entries ∧
      Span.ContainsKey (⟨1, 3⟩ : Span) 2 = true ∧
      Store.GetSpanConfigForKey ⟨42, [⟨⟨1, 3⟩, 7⟩]⟩ 2 = Except.ok 7 :=
  ⟨by decide, by decide, by decide,
    (point_lookup ⟨42, [⟨⟨1, 3⟩, 7⟩]⟩ 2 (by decide)).2.1 ⟨⟨1, 3⟩, 7⟩
      (by decide) (by decide)⟩

/-- C4: Dry-run no-op — for a batch of pairwise non-overlapping valid
updates, a dry-run apply leaves the store unchanged, returns the same
deltas as a committed apply from the same starting state, and a dry-run
followed by a committed apply yields the same final state and deltas as
the committed apply alone. -/
theorem dryrun_noop (s : Store) (us : List Update)
    (hv : ∀ u ∈ us, Span.Valid u.span = true)
    (hp : pairwiseDisjoint us = true) :
    s.applyStore true us = s ∧
      (∀ dl ad s2, s.applyInternal false us = Except.ok (dl, ad, s2) →
        s.applyInternal true us = Except.ok (dl, ad, s)) ∧
      (s.applyStore true us).applyInternal false us = s.applyInternal false us := by
  have hall : us.all (fun u => Span.Valid u.span) = true := List.all_eq_true.mpr hv
  have h1 : s.applyStore true us = s := by
    rw [applyStore_eq, if_neg (by intro hcon; cases hcon.2)]
  refine ⟨h1, ?_, by rw [h1]⟩
  intro dl ad s2 hok
  rw [applyInternal_ok hall] at hok
  rw [applyInternal_ok hall]
  simp only [Except.ok.injEq, Prod.mk.injEq] at hok
  rcases hok with ⟨hD, hA, _⟩
  simp [hD, hA]

/-- Witness for the dry-run no-op at a concrete input. -/
theorem dryrun_noop_witness :
    (∀ u ∈ [(⟨⟨1, 2⟩, some 4⟩ : Update)], Span.Valid u.span = true) ∧
      pairwiseDisjoint [(⟨⟨1, 2⟩, some 4⟩ : Update)] = true ∧
      Store.applyStore ⟨3, []⟩ true [(⟨⟨1, 2⟩, some 4⟩ : Update)] = ⟨3, []⟩ :=
  ⟨by decide, by decide,
    (dryrun_noop ⟨3, []⟩ [(⟨⟨1, 2⟩, some 4⟩ : Update)] (by decide) (by decide)).1⟩

/-- C5: Apply error handling and atomicity — an apply call returns an error
exactly when the batch contains an update with a malformed span, and on
error nothing is committed: the caller's store is unchanged; a batch with
empty deleted and added lists is a success, as with a deletion over an
empty store. -/
theorem apply_error_atomic :
    (∀ (s : Store) (dr : Bool) (us : List Update),
      ((∃ e, s.applyInternal dr us = Except.error e) ↔
        ∃ u ∈ us, Span.Valid u.span = false) ∧
      (∀ e, s.applyInternal dr us = Except.error e → s.applyStore dr us = s)) ∧
      Store.applyInternal ⟨7, []⟩ false [⟨⟨1, 2⟩, none⟩] =
        Except.ok ([], [], ⟨7, []⟩) := by
  constructor
  · intro s dr us
    constructor
    · constructor
      · rintro ⟨e, he⟩
        by_cases hall : us.all (fun u => Span.Valid u.span) = true
        · rw [applyInternal_ok hall] at he
          cases he
        · have hnall : ¬(∀ u ∈ us, Span.Valid u.span = true) :=
            fun hc => hall (List.all_eq_true.mpr hc)
          push_neg at hnall
          rcases hnall with ⟨u, hu, hval⟩
          exact ⟨u, hu, Bool.eq_false_iff.mpr hval⟩
      · rintro ⟨u, hu, hval⟩
        have hall : ¬us.all (fun u => Span.Valid u.span) = true := by
          intro hcon
          have hcv := List.all_eq_true.mp hcon u hu
          rw [hval] at hcv
          cases hcv
        exact ⟨_, applyInternal_err hall⟩
    · intro e he
      unfold Store.applyStore
      rw [he]
  · rfl

/-- Witness for apply error handling at a malformed concrete input. -/
theorem apply_error_atomic_witness :
    (∃ u ∈ [(⟨⟨2, 2⟩, none⟩ : Update)], Span.Valid u.span = false) ∧
      (∃ e, Store.applyInternal ⟨0, []⟩ false [(⟨⟨2, 2⟩, none⟩ : Update)] =
        Except.error e) :=
  ⟨by decide,
    (apply_error_atomic.1 ⟨0, []⟩ false [(⟨⟨2, 2⟩, none⟩ : Update)]).1.mpr
      (by decide)⟩

/-- C6: ComputeSplitKey leftmost choice — a returned split key is the start
key of a stored entry overlapping the queried range, lies strictly inside
the open range, and is minimal among the start keys of overlapping entries
strictly inside the range; no key is returned only when no overlapping
entry starts strictly inside; concretely, with stored entries [1,3):20,
[3,5):21, [5,7):20 the split key over [1,7) is 3. -/
theorem computeSplitKey_leftmost (s : Store) (a b : Nat)
    (hwf : wellFormed s.entries = true) :
    (∀ k, s.ComputeSplitKey a b = some k →
      ∃ en, en ∈ s.entries ∧ Span.Overlaps en.span ⟨a, b⟩ = true ∧
        en.span.key = k ∧ a < k ∧ k < b ∧
        ∀ en2 ∈ s.entries, Span.Overlaps en2.span ⟨a, b⟩ = true →
          a < en2.span.key → en2.span.key < b → k ≤ en2.span.key) ∧
      (s.ComputeSplitKey a b = none →
        ∀ en ∈ s.entries, Span.Overlaps en.span ⟨a, b⟩ = true →
          ¬(a < en.span.key ∧ en.span.key < b)) ∧
      Store.ComputeSplitKey ⟨99, [⟨⟨1, 3⟩, 20⟩, ⟨⟨3, 5⟩, 21⟩, ⟨⟨5, 7⟩, 20⟩]⟩
        1 7 = some 3 := by
  have hchain : chainedFrom 0
      (s.entries.filter (fun en => Span.Overlaps en.span ⟨a, b⟩)) = true :=
    chainedFrom_filter _ hwf
  refine ⟨?_, ?_, rfl⟩
  · intro k hk
    unfold Store.ComputeSplitKey at hk
    cases hfind : (s.entries.filter (fun en => Span.Overlaps en.span ⟨a, b⟩)).find?
        (fun en => decide (a < en.span.key) && decide (en.span.key < b)) with
    | none =>
        rw [hfind] at hk
        cases hk
    | some x =>
        rw [hfind] at hk
        injection hk with hk
        subst hk
        have hxmem := List.mem_of_find?_eq_some hfind
        have hxfilter := List.mem_filter.mp hxmem
        have hpx := List.find?_some hfind
        simp only [Bool.and_eq_true, decide_eq_true_eq] at hpx
        refine ⟨x, hxfilter.1, hxfilter.2, rfl, hpx.1, hpx.2, ?_⟩
        intro en2 hen2 hov2 ha2 hb2
        refine find?_min_key hchain hfind en2
          (List.mem_filter.mpr ⟨hen2, hov2⟩) ?_
        simp [ha2, hb2]
  · intro hnone en hen hov hcon
    unfold Store.ComputeSplitKey at hnone
    cases hfind : (s.entries.filter (fun en => Span.Overlaps en.span ⟨a, b⟩)).find?
        (fun en => decide (a < en.span.key) && decide (en.span.key < b)) with
    | some x =>
        rw [hfind] at hnone
        cases hnone
    | none =>
        have hno := List.find?_eq_none.mp hfind en (List.mem_filter.mpr ⟨hen, hov⟩)
        simp [hcon.1, hcon.2] at hno

/-- Witness for the leftmost split-key choice at the spec's concrete
scenario. -/
theorem computeSplitKey_leftmost_witness :
    wellFormed (⟨99, [⟨⟨1, 3⟩, 20⟩, ⟨⟨3, 5⟩, 21⟩, ⟨⟨5, 7⟩, 20⟩]⟩ :
        Store).entries = true ∧
      (∃ en, en ∈ (⟨99, [⟨⟨1, 3⟩, 20⟩, ⟨⟨3, 5⟩, 21⟩, ⟨⟨5, 7⟩, 20⟩]⟩ :
          Store).entries ∧
        Span.Overlaps en.span ⟨1, 7⟩ = true ∧ en.span.key = 3 ∧
        (1 : Nat) < 3 ∧ (3 : Nat) < 7 ∧
        ∀ en2 ∈ (⟨99, [⟨⟨1, 3⟩, 20⟩, ⟨⟨3, 5⟩, 21⟩, ⟨⟨5, 7⟩, 20⟩]⟩ :
            Store).entries,
          Span.Overlaps en2.span ⟨1, 7⟩ = true →
            1 < en2.span.key → en2.span.key < 7 → 3 ≤ en2.span.key) :=
  ⟨by decide,
    (computeSplitKey_leftmost ⟨99, [⟨⟨1, 3⟩, 20⟩, ⟨⟨3, 5⟩, 21⟩, ⟨⟨5, 7⟩, 20⟩]⟩
      1 7 (by decide)).1 3 (by decide)⟩

/-- C7: NeedsSplit definition — `NeedsSplit` is true exactly when more than
one distinct stored entry overlaps the queried range; in particular it is
false when no stored entry overlaps the range. -/
theorem needsSplit_iff (s : Store) (a b : Nat)
    (hwf : wellFormed s.entries = true) :
    (s.NeedsSplit a b = true ↔
      ∃ e1, e1 ∈ s.entries ∧ ∃ e2, e2 ∈ s.entries ∧ e1 ≠ e2 ∧
        Span.Overlaps e1.span ⟨a, b⟩ = true ∧
        Span.Overlaps e2.span ⟨a, b⟩ = true) ∧
      ((∀ en ∈ s.entries, Span.Overlaps en.span ⟨a, b⟩ = false) →
        s.NeedsSplit a b = false) := by
  have hnd : (s.entries.filter (fun en => Span.Overlaps en.span ⟨a, b⟩)).Nodup :=
    List.Nodup.filter _ (chainedFrom_nodup hwf)
  have hdedup : (s.entries.filter (fun en => Span.Overlaps en.span ⟨a, b⟩)).dedup =
      s.entries.filter (fun en => Span.Overlaps en.span ⟨a, b⟩) :=
    List.dedup_eq_self.mpr hnd
  constructor
  · unfold Store.NeedsSplit
    rw [hdedup]
    simp only [decide_eq_true_eq]
    constructor
    · intro hlen
      rcases pair_of_one_lt_length hnd hlen with ⟨x, hx, y, hy, hne⟩
      have hxf := List.mem_filter.mp hx
      have hyf := List.mem_filter.mp hy
      exact ⟨x, hxf.1, y, hyf.1, hne, hxf.2, hyf.2⟩
    · rintro ⟨e1, h1, e2, h2, hne, ho1, ho2⟩
      exact one_lt_length_of_pair (List.mem_filter.mpr ⟨h1, ho1⟩)
        (List.mem_filter.mpr ⟨h2, ho2⟩) hne
  · intro hnone
    unfold Store.NeedsSplit
    rw [filter_none hnone]
    rfl

/-- Witness for the NeedsSplit characterisation at a concrete store. -/
theorem needsSplit_iff_witness :
    wellFormed (⟨99, [⟨⟨1, 3⟩, 20⟩, ⟨⟨3, 5⟩, 21⟩, ⟨⟨5, 7⟩, 20⟩]⟩ :
        Store).entries = true ∧
      Store.NeedsSplit ⟨99, [⟨⟨1, 3⟩, 20⟩, ⟨⟨3, 5⟩, 21⟩, ⟨⟨5, 7⟩, 20⟩]⟩
        1 7 = true :=
  ⟨by decide,
    (needsSplit_iff ⟨99, [⟨⟨1, 3⟩, 20⟩, ⟨⟨3, 5⟩, 21⟩, ⟨⟨5, 7⟩, 20⟩]⟩ 1 7
      (by decide)).1.mpr
      ⟨⟨⟨1, 3⟩, 20⟩, by decide, ⟨⟨3, 5⟩, 21⟩, by decide, by decide,
        by decide, by decide⟩⟩

/-- C8 counterexample: with the single stored entry [2,3) and the probed
range [0,5), `ComputeSplitKey` returns the key 2 lying strictly inside the
open range while `NeedsSplit` is false, refuting the claimed equivalence. -/
theorem split_agreement_cex :
    ¬(Store.NeedsSplit ⟨0, [⟨⟨2, 3⟩, 1⟩]⟩ 0 5 =
      splitKeyStrictlyInside ⟨0, [⟨⟨2, 3⟩, 1⟩]⟩ 0 5) := by decide

/-- C8 (amended): for a well-formed store, whenever `NeedsSplit` is true,
`ComputeSplitKey` returns a key lying strictly inside the open queried
range. -/
theorem split_agreement_amended (s : Store) (a b : Nat)
    (hwf : wellFormed s.entries = true) (hns : s.NeedsSplit a b = true) :
    splitKeyStrictlyInside s a b = true := by
  have hnd : (s.entries.filter (fun en => Span.Overlaps en.span ⟨a, b⟩)).Nodup :=
    List.Nodup.filter _ (chainedFrom_nodup hwf)
  have hdedup : (s.entries.filter (fun en => Span.Overlaps en.span ⟨a, b⟩)).dedup =
      s.entries.filter (fun en => Span.Overlaps en.span ⟨a, b⟩) :=
    List.dedup_eq_self.mpr hnd
  unfold Store.NeedsSplit at hns
  rw [hdedup] at hns
  simp only [decide_eq_true_eq] at hns
  rcases pair_of_one_lt_length hnd hns with ⟨x, hx, y, hy, hne⟩
  have hxf := List.mem_filter.mp hx
  have hyf := List.mem_filter.mp hy
  rcases second_overlap_strict hwf hxf.1 hyf.1 hne hxf.2 hyf.2 with
    ⟨en, hmem, hov, hak⟩
  have hkb : en.span.key < b := (overlaps_iff.mp hov).1
  unfold splitKeyStrictlyInside Store.ComputeSplitKey
  cases hfind : (s.entries.filter (fun en => Span.Overlaps en.span ⟨a, b⟩)).find?
      (fun en => decide (a < en.span.key) && decide (en.span.key < b)) with
  | none =>
      have hno := List.find?_eq_none.mp hfind en (List.mem_filter.mpr ⟨hmem, hov⟩)
      simp [hak, hkb] at hno
  | some x2 =>
      have hpx := List.find?_some hfind
      simpa using hpx

/-- Witness for the amended split agreement at a concrete store. -/
theorem split_agreement_amended_witness :
    wellFormed (⟨99, [⟨⟨1, 4⟩, 20⟩, ⟨⟨4, 6⟩, 21⟩]⟩ : Store).entries = true ∧
      Store.NeedsSplit ⟨99, [⟨⟨1, 4⟩, 20⟩, ⟨⟨4, 6⟩, 21⟩]⟩ 1 6 = true ∧
      splitKeyStrictlyInside ⟨99, [⟨⟨1, 4⟩, 20⟩, ⟨⟨4, 6⟩, 21⟩]⟩ 1 6 = true :=
  ⟨by decide, by decide,
    split_agreement_amended ⟨99, [⟨⟨1, 4⟩, 20⟩, ⟨⟨4, 6⟩, 21⟩]⟩ 1 6
      (by decide) (by decide)⟩

/-- C9: AllOverlapping ordering — for every query span, the overlap query
returns exactly the stored entries overlapping that span, sorted by span
start key and pairwise non-overlapping. -/
theorem allOverlapping_sorted (s : Store) (sp : Span)
    (hwf : wellFormed s.entries = true) :
    (∀ en, en ∈ s.GetAllOverlapping sp ↔
      (en ∈ s.entries ∧ Span.Overlaps en.span sp = true)) ∧
      (s.GetAllOverlapping sp).Pairwise (fun x y => x.span.key < y.span.key) ∧
      (s.GetAllOverlapping sp).Pairwise
        (fun x y => Span.Overlaps x.span y.span = false) := by
  have hchain : chainedFrom 0 (s.GetAllOverlapping sp) = true :=
    chainedFrom_filter _ hwf
  exact ⟨fun en => List.mem_filter, chainedFrom_pairwise_lt hchain,
    chainedFrom_pairwise_noov hchain⟩

/-- Witness for the overlap query at a concrete store and span. -/
theorem allOverlapping_sorted_witness :
    wellFormed (⟨99, [⟨⟨1, 3⟩, 20⟩, ⟨⟨3, 5⟩, 21⟩, ⟨⟨5, 7⟩, 20⟩]⟩ :
        Store).entries = true ∧
      (⟨⟨3, 5⟩, 21⟩ : Entry) ∈ Store.GetAllOverlapping
        ⟨99, [⟨⟨1, 3⟩, 20⟩, ⟨⟨3, 5⟩, 21⟩, ⟨⟨5, 7⟩, 20⟩]⟩ ⟨2, 6⟩ :=
  ⟨by decide,
    ((allOverlapping_sorted ⟨99, [⟨⟨1, 3⟩, 20⟩, ⟨⟨3, 5⟩, 21⟩, ⟨⟨5, 7⟩, 20⟩]⟩
      ⟨2, 6⟩ (by decide)).1 ⟨⟨3, 5⟩, 21⟩).mpr ⟨by decide, by decide⟩⟩

/-- C10: Implicit boundary invariant — after any sequence of committed
apply calls starting from a fresh store, every stored entry's start and end
key is drawn from the endpoint keys of the applied updates' spans;
consequently a probe span lying strictly between two adjacent
update-boundary keys is either disjoint from every stored entry or fully
contained in a single stored entry containing the entire probe span. -/
theorem boundary_invariant (f : Nat) (batches : List (List Update)) :
    (∀ en ∈ (applySeq batches (New f)).entries,
      en.span.key ∈ batchBoundaries batches ∧
        en.span.endKey ∈ batchBoundaries batches) ∧
      (∀ p q, p < q →
        (∀ k ∈ batchBoundaries batches, ¬(p < k ∧ k < q)) →
        (∀ en ∈ (applySeq batches (New f)).entries,
          Span.Overlaps en.span ⟨p, q⟩ = true →
            en.span.key ≤ p ∧ q ≤ en.span.endKey) ∧
        (∀ e1 ∈ (applySeq batches (New f)).entries,
          ∀ e2 ∈ (applySeq batches (New f)).entries,
            Span.Overlaps e1.span ⟨p, q⟩ = true →
              Span.Overlaps e2.span ⟨p, q⟩ = true → e1 = e2)) := by
  have hkeys : ∀ en ∈ (applySeq batches (New f)).entries,
      en.span.key ∈ batchBoundaries batches ∧
        en.span.endKey ∈ batchBoundaries batches :=
    keysIn_applySeq (fun b hb u hu => mem_batchBoundaries hb hu)
      (fun en hen => by cases hen)
  have hwf : wellFormed (applySeq batches (New f)).entries = true :=
    wellFormed_applySeq batches rfl
  refine ⟨hkeys, ?_⟩
  intro p q hpq hgap
  have hcontain : ∀ en ∈ (applySeq batches (New f)).entries,
      Span.Overlaps en.span ⟨p, q⟩ = true →
        en.span.key ≤ p ∧ q ≤ en.span.endKey := by
    intro en hen hov
    rcases overlaps_iff.mp hov with ⟨hkq, hpe⟩
    rcases hkeys en hen with ⟨hk1, hk2⟩
    constructor
    · by_contra hcon
      push_neg at hcon
      exact hgap _ hk1 ⟨hcon, hkq⟩
    · by_contra hcon
      push_neg at hcon
      exact hgap _ hk2 ⟨hpe, hcon⟩
  refine ⟨hcontain, ?_⟩
  intro e1 h1 e2 h2 ho1 ho2
  rcases hcontain e1 h1 ho1 with ⟨ha1, hb1⟩
  rcases hcontain e2 h2 ho2 with ⟨ha2, hb2⟩
  exact contained_unique hpq hwf h1 h2 ha1 hb1 ha2 hb2

/-- Witness for the boundary invariant at a concrete one-batch input. -/
theorem boundary_invariant_witness :
    (1 : Nat) < 3 ∧
      (∀ k ∈ batchBoundaries [[(⟨⟨1, 3⟩, some 5⟩ : Update)]],
        ¬(1 < k ∧ k < 3)) ∧
      (∀ en ∈ (applySeq [[(⟨⟨1, 3⟩, some 5⟩ : Update)]] (New 0)).entries,
        Span.Overlaps en.span ⟨1, 3⟩ = true →
          en.span.key ≤ 1 ∧ 3 ≤ en.span.endKey) :=
  ⟨by decide, by decide,
    ((boundary_invariant 0 [[(⟨⟨1, 3⟩, some 5⟩ : Update)]]).2 1 3
      (by decide) (by decide)).1⟩
